import Mathlib

/-
Verification of get_game_descriptions.py.

The script downloads one HTML page, splits it on the span-class-puzzle
marker, and for each later segment slices out a puzzle name and
description, transforms the description, asserts it is clean, and writes
a C array literal to descriptions.h.

Shallow embedding: Python strings are lists of characters; the fallible
operations return Option or Except values mirroring IndexError,
ValueError and AssertionError.  In string literals below, \x22 is the
double-quote character and \x7b / \x7d are the braces.
-/

abbrev Str := List Char

/-- Python whitespace for str.rstrip, restricted to the ASCII range
(space, tab, newline, carriage return, vertical tab, form feed). -/
def pyIsSpace (c : Char) : Bool :=
  c = ' ' || c = '\t' || c = '\n' || c = '\r' || c = '\x0b' || c = '\x0c'

/-- Python s.rstrip(): remove trailing whitespace. -/
def pyRstrip (s : Str) : Str :=
  (s.reverse.dropWhile pyIsSpace).reverse

/-- Python slicing s[a:b] for nonnegative bounds. -/
def pySlice (s : Str) (a b : Nat) : Str :=
  (s.take b).drop a

/-- Lowest index at which sub occurs in s as a contiguous substring. -/
def findSub (sub : Str) : Str → Option Nat
  | [] => if sub.isPrefixOf ([] : Str) then some 0 else none
  | c :: rest =>
    if sub.isPrefixOf (c :: rest) then some 0
    else (findSub sub rest).map (· + 1)

/-- Python s.index(sub, start): lowest index at or after start where sub
occurs; none models ValueError. -/
def pyIndexFrom (sub s : Str) (start : Nat) : Option Nat :=
  (findSub sub (s.drop start)).map (· + start)

/-- Prepend a character to the first part of a split result. -/
def consHead (c : Char) : List Str → List Str
  | [] => [[c]]
  | h :: t => (c :: h) :: t

/-- Fuel-driven worker for Python str.split with a nonempty separator. -/
def splitFuel (sep : Str) : Nat → Str → List Str
  | _, [] => [[]]
  | 0, s => [s]
  | fuel + 1, c :: rest =>
    if sep.isPrefixOf (c :: rest) then
      [] :: splitFuel sep fuel (rest.drop (sep.length - 1))
    else
      consHead c (splitFuel sep fuel rest)

/-- Python s.split(sep) for a nonempty separator: non-overlapping
occurrences, scanned left to right. -/
def pySplit (sep s : Str) : List Str :=
  splitFuel sep s.length s

/-- Fuel-driven worker for Python str.replace with a nonempty pattern. -/
def replFuel (old new : Str) : Nat → Str → Str
  | _, [] => []
  | 0, s => s
  | fuel + 1, c :: rest =>
    if old.isPrefixOf (c :: rest) then
      new ++ replFuel old new fuel (rest.drop (old.length - 1))
    else
      c :: replFuel old new fuel rest

/-- Python s.replace(old, new) for a nonempty pattern: every
non-overlapping occurrence, scanned left to right. -/
def pyReplace (old new s : Str) : Str :=
  replFuel old new s.length s

/-- Fuel-driven worker counting non-overlapping occurrences. -/
def occFuel (pat : Str) : Nat → Str → Nat
  | _, [] => 0
  | 0, _ => 0
  | fuel + 1, c :: rest =>
    if pat.isPrefixOf (c :: rest) then
      occFuel pat fuel (rest.drop (pat.length - 1)) + 1
    else
      occFuel pat fuel rest

/-- Number of non-overlapping occurrences of pat in s, scanned left to
right (the count that governs Python s.split(pat)). -/
def countOcc (pat s : Str) : Nat :=
  occFuel pat s.length s

/-- The marker the page is split on: <span class="puzzle">. -/
def spanPat : Str := ("<span class=\x22puzzle\x22>").toList

/-- The row separator: <tr>. -/
def trPat : Str := ("<tr>").toList

def gtPat : Str := (">").toList

def ltPat : Str := ("<").toList

/-- The closing cell tag: </td>. -/
def tdClosePat : Str := ("</td>").toList

/-- The one escaped entity the script substitutes: <code>&gt;</code>. -/
def codeGtPat : Str := ("<code>&gt;</code>").toList

/-- The ways an iteration of the script can abort: IndexError from r[1]
or r[4], ValueError from str.index, or one of the two assertions (each
assertion carries the offending description as its message). -/
inductive PyErr : Type
  | indexError : PyErr
  | valueError : PyErr
  | assertLt : Str → PyErr
  | assertQuote : Str → PyErr
deriving DecidableEq, Repr

/-- The description transformation on the raw slice, exactly as in the
source: replace newlines with spaces, rstrip, then substitute the
literal <code>&gt;</code> by >. -/
def descTransform (s : Str) : Str :=
  pyReplace codeGtPat ((">").toList)
    (pyRstrip (pyReplace (("\n").toList) ((" ").toList) s))

/-- One loop iteration of the script on a segment p: split on <tr>,
slice out the name from r[1] and the description from r[4], transform
the description and run the two assertions.  Operations are sequenced in
the source's evaluation order. -/
def procSeg (p : Str) : Except PyErr (Str × Str) :=
  match (pySplit trPat p)[1]? with
  | none => Except.error PyErr.indexError
  | some r1 =>
    match pyIndexFrom gtPat r1 0 with
    | none => Except.error PyErr.valueError
    | some i1 =>
      match pyIndexFrom ltPat r1 1 with
      | none => Except.error PyErr.valueError
      | some i2 =>
        match (pySplit trPat p)[4]? with
        | none => Except.error PyErr.indexError
        | some r4 =>
          match pyIndexFrom gtPat r4 0 with
          | none => Except.error PyErr.valueError
          | some j1 =>
            match pyIndexFrom tdClosePat r4 2 with
            | none => Except.error PyErr.valueError
            | some j2 =>
              if ('<' ∈ descTransform (pySlice r4 (j1 + 1) j2)) then
                Except.error (PyErr.assertLt (descTransform (pySlice r4 (j1 + 1) j2)))
              else if ('\x22' ∈ descTransform (pySlice r4 (j1 + 1) j2)) then
                Except.error (PyErr.assertQuote (descTransform (pySlice r4 (j1 + 1) j2)))
              else
                Except.ok (pySlice r1 (i1 + 1) i2, descTransform (pySlice r4 (j1 + 1) j2))

/-- Run the loop over the segments: collect the (name, description)
pairs printed before the first failure, together with the failure if
one occurs. -/
def runPairs : List Str → List (Str × Str) × Option PyErr
  | [] => ([], none)
  | p :: ps =>
    match procSeg p with
    | Except.error e => ([], some e)
    | Except.ok nd =>
      let rest := runPairs ps
      (nd :: rest.1, rest.2)

/-- The segments the loop ranges over: puzzles[1:]. -/
def segsOf (page : Str) : List Str :=
  (pySplit spanPat page).drop 1

/-- The whole run on a page: the pairs written and the abort, if any. -/
def scriptRun (page : Str) : List (Str × Str) × Option PyErr :=
  runPairs (segsOf page)

/-- The header line printed before the loop. -/
def headerLine : Str := ("NSString *GameDescriptions[][2] = \x7b").toList

/-- The per-pair line, from the source's format string. -/
def entryLine (n d : Str) : Str :=
  ("    \x7b@\x22").toList ++ n ++ ("\x22, @\x22").toList ++ d ++ ("\x22\x7d,").toList

/-- The closing line printed after the loop. -/
def footerLine : Str := ("\x7d;").toList

/-- The lines present in descriptions.h after the run: the header, one
entry per pair written before any abort, and the closing line only when
the loop completed. -/
def outputFile (page : Str) : List Str :=
  headerLine ::
    ((scriptRun page).1.map (fun nd => entryLine nd.1 nd.2)) ++
      (match (scriptRun page).2 with
       | none => [footerLine]
       | some _ => [])

/-- Whether an abort is one of the two assertions. -/
def isAssertErr : PyErr → Bool
  | PyErr.assertLt _ => true
  | PyErr.assertQuote _ => true
  | _ => false

/-- The descriptions actually computed during the run, in order: one per
completed iteration, plus the one at which an assertion fires. -/
def descsDuringRun : List Str → List Str
  | [] => []
  | p :: ps =>
    match procSeg p with
    | Except.ok nd => nd.2 :: descsDuringRun ps
    | Except.error (PyErr.assertLt d) => [d]
    | Except.error (PyErr.assertQuote d) => [d]
    | Except.error _ => []

/-- The descriptions extracted during the run on a page. -/
def extractedDescs (page : Str) : List Str :=
  descsDuringRun (segsOf page)

/-! ### Helper lemmas about the string primitives -/

theorem consHead_ne_nil (c : Char) (L : List Str) : consHead c L ≠ [] := by
  cases L <;> simp [consHead]

theorem consHead_length (c : Char) (L : List Str) (h : L ≠ []) :
    (consHead c L).length = L.length := by
  cases L with
  | nil => exact absurd rfl h
  | cons h' t => simp [consHead]

theorem splitFuel_ne_nil (sep : Str) (fuel : Nat) (s : Str) :
    splitFuel sep fuel s ≠ [] := by
  match fuel, s with
  | _, [] => simp [splitFuel]
  | 0, c :: rest => simp [splitFuel]
  | fuel + 1, c :: rest =>
    simp only [splitFuel]
    split
    · simp
    · exact consHead_ne_nil _ _

theorem splitFuel_length (sep : Str) :
    ∀ (fuel : Nat) (s : Str), s.length ≤ fuel →
      (splitFuel sep fuel s).length = occFuel sep fuel s + 1 := by
  intro fuel
  induction fuel with
  | zero =>
    intro s h
    have hs : s = [] := List.eq_nil_of_length_eq_zero (Nat.le_zero.mp h)
    subst hs
    simp [splitFuel, occFuel]
  | succ fuel ih =>
    intro s h
    cases s with
    | nil => simp [splitFuel, occFuel]
    | cons c rest =>
      simp only [splitFuel, occFuel]
      by_cases hc : sep.isPrefixOf (c :: rest)
      · simp only [hc, if_true, List.length_cons]
        rw [ih (rest.drop (sep.length - 1))]
        have := List.length_drop (sep.length - 1) rest
        simp only [List.length_cons] at h
        omega
      · rw [if_neg hc, if_neg hc, consHead_length _ _ (splitFuel_ne_nil _ _ _)]
        exact ih rest (by simp only [List.length_cons] at h; omega)

theorem pySplit_length (sep s : Str) :
    (pySplit sep s).length = countOcc sep s + 1 :=
  splitFuel_length sep s.length s (Nat.le_refl _)

theorem replFuel_single (a b : Char) :
    ∀ (fuel : Nat) (s : Str), s.length ≤ fuel →
      replFuel [a] [b] fuel s = s.map (fun c => if c = a then b else c) := by
  intro fuel
  induction fuel with
  | zero =>
    intro s h
    have hs : s = [] := List.eq_nil_of_length_eq_zero (Nat.le_zero.mp h)
    subst hs
    simp [replFuel]
  | succ fuel ih =>
    intro s h
    cases s with
    | nil => simp [replFuel]
    | cons c rest =>
      simp only [replFuel, List.map_cons]
      have hrest : rest.length ≤ fuel := by
        simp only [List.length_cons] at h; omega
      by_cases hc : (([a] : Str).isPrefixOf (c :: rest))
      · have hca : a = c := by
          simpa [List.isPrefixOf] using hc
        rw [if_pos hc]
        have hdrop : rest.drop (List.length ([a] : Str) - 1) = rest := by simp
        rw [hdrop, ih rest hrest]
        subst hca
        simp
      · have hca : ¬ (c = a) := by
          intro hh
          exact hc (by simp [List.isPrefixOf, hh])
        rw [if_neg hc, ih rest hrest]
        simp [hca]

theorem replFuel_mem (old new : Str) :
    ∀ (fuel : Nat) (s : Str) (x : Char),
      x ∈ replFuel old new fuel s → x ∈ s ∨ x ∈ new := by
  intro fuel
  induction fuel with
  | zero =>
    intro s x hx
    cases s with
    | nil => simp [replFuel] at hx
    | cons c rest => exact Or.inl (by simpa [replFuel] using hx)
  | succ fuel ih =>
    intro s x hx
    cases s with
    | nil => simp [replFuel] at hx
    | cons c rest =>
      simp only [replFuel] at hx
      by_cases hc : old.isPrefixOf (c :: rest)
      · simp only [hc, if_true, List.mem_append] at hx
        rcases hx with h | h
        · exact Or.inr h
        · rcases ih _ x h with h2 | h2
          · exact Or.inl (List.mem_cons_of_mem _ (List.drop_subset _ _ h2))
          · exact Or.inr h2
      · rw [if_neg hc] at hx
        rcases List.mem_cons.mp hx with h | h
        · exact Or.inl (by simp [h])
        · rcases ih _ x h with h2 | h2
          · exact Or.inl (List.mem_cons_of_mem _ h2)
          · exact Or.inr h2

theorem getLast?_drop_of_ne_nil {α : Type} {l : List α} {n : Nat}
    (h : l.drop n ≠ []) : (l.drop n).getLast? = l.getLast? := by
  conv_rhs => rw [← List.take_append_drop n l]
  rw [List.getLast?_append]
  cases hd : (l.drop n).getLast? with
  | none => exact absurd (List.getLast?_eq_none_iff.mp hd) h
  | some x => simp


theorem getLast?_cons_of_ne_nil {α : Type} (c : α) {l : List α} (h : l ≠ []) :
    (c :: l).getLast? = l.getLast? := by
  have hc : (c :: l) = [c] ++ l := rfl
  rw [hc, List.getLast?_append]
  cases hl : l.getLast? with
  | none => exact absurd (List.getLast?_eq_none_iff.mp hl) h
  | some x => simp

theorem replFuel_nil_arg (old new : Str) (fuel : Nat) :
    replFuel old new fuel [] = [] := by
  cases fuel <;> rfl

theorem replFuel_eq_nil (old new : Str) (hnew : new ≠ []) (fuel : Nat) (s : Str)
    (h : replFuel old new fuel s = []) : s = [] := by
  cases s with
  | nil => rfl
  | cons c rest =>
    cases fuel with
    | zero => exact h
    | succ fuel =>
      simp only [replFuel] at h
      by_cases hc : old.isPrefixOf (c :: rest)
      · simp only [hc, if_true, List.append_eq_nil] at h
        exact absurd h.1 hnew
      · simp [hc] at h

theorem replFuel_last (old new : Str) (hnew : new ≠ []) :
    ∀ (fuel : Nat) (s : Str),
      (replFuel old new fuel s).getLast? = s.getLast? ∨
      (replFuel old new fuel s).getLast? = new.getLast? := by
  intro fuel
  induction fuel with
  | zero =>
    intro s
    cases s with
    | nil => exact Or.inl (by simp [replFuel])
    | cons c rest => exact Or.inl (by simp [replFuel])
  | succ fuel ih =>
    intro s
    cases s with
    | nil => exact Or.inl (by simp [replFuel])
    | cons c rest =>
      simp only [replFuel]
      by_cases hc : old.isPrefixOf (c :: rest)
      · rw [if_pos hc]
        rcases hrec : replFuel old new fuel (rest.drop (old.length - 1)) with _ | ⟨y, t⟩
        · right
          rw [List.append_nil]
        · have hne : (y :: t : Str) ≠ [] := by simp
          have hdne : rest.drop (old.length - 1) ≠ [] := by
            intro hh
            rw [hh, replFuel_nil_arg] at hrec
            exact absurd hrec.symm hne
          have hrne : rest ≠ [] := by
            intro hh
            subst hh
            simp at hdne
          rw [List.getLast?_append]
          rcases ih (rest.drop (old.length - 1)) with h2 | h2 <;> rw [hrec] at h2
          · left
            rw [getLast?_drop_of_ne_nil hdne] at h2
            rw [getLast?_cons_of_ne_nil c hrne]
            cases hz : (y :: t : Str).getLast? with
            | none => exact absurd (List.getLast?_eq_none_iff.mp hz) hne
            | some z =>
              rw [hz] at h2
              rw [← h2]
              simp
          · right
            cases hz : (y :: t : Str).getLast? with
            | none => exact absurd (List.getLast?_eq_none_iff.mp hz) hne
            | some z =>
              rw [hz] at h2
              rw [← h2]
              simp
      · rw [if_neg hc]
        rcases hrec : replFuel old new fuel rest with _ | ⟨y, t⟩
        · have hrnil : rest = [] := replFuel_eq_nil old new hnew fuel rest hrec
          subst hrnil
          exact Or.inl rfl
        · have hrne : rest ≠ [] := by
            intro hh
            rw [hh, replFuel_nil_arg] at hrec
            exact absurd hrec.symm (by simp)
          rw [getLast?_cons_of_ne_nil c (show (y :: t : Str) ≠ [] by simp),
            getLast?_cons_of_ne_nil c hrne]
          have h2 := ih rest
          rw [hrec] at h2
          exact h2

theorem findSub_isPrefixOf (sub : Str) :
    ∀ (s : Str) (i : Nat), findSub sub s = some i →
      sub.isPrefixOf (s.drop i) = true := by
  intro s
  induction s with
  | nil =>
    intro i h
    simp only [findSub] at h
    by_cases hp : sub.isPrefixOf ([] : Str)
    · rw [if_pos hp] at h
      obtain rfl : 0 = i := Option.some.inj h
      simpa using hp
    · rw [if_neg hp] at h
      exact absurd h (by simp)
  | cons c rest ih =>
    intro i h
    simp only [findSub] at h
    by_cases hp : sub.isPrefixOf (c :: rest)
    · rw [if_pos hp] at h
      obtain rfl : 0 = i := Option.some.inj h
      simpa using hp
    · rw [if_neg hp] at h
      rcases Option.map_eq_some'.mp h with ⟨i2, hi2, rfl⟩
      simpa using ih i2 hi2

theorem findSub_min (sub : Str) :
    ∀ (s : Str) (i : Nat), findSub sub s = some i →
      ∀ j, j < i → sub.isPrefixOf (s.drop j) = false := by
  intro s
  induction s with
  | nil =>
    intro i h j hj
    simp only [findSub] at h
    by_cases hp : sub.isPrefixOf ([] : Str)
    · rw [if_pos hp] at h
      obtain rfl : 0 = i := Option.some.inj h
      omega
    · rw [if_neg hp] at h
      exact absurd h (by simp)
  | cons c rest ih =>
    intro i h j hj
    simp only [findSub] at h
    by_cases hp : sub.isPrefixOf (c :: rest)
    · rw [if_pos hp] at h
      obtain rfl : 0 = i := Option.some.inj h
      omega
    · rw [if_neg hp] at h
      rcases Option.map_eq_some'.mp h with ⟨i2, hi2, rfl⟩
      cases j with
      | zero =>
        simpa using Bool.not_eq_true _ ▸ (by simpa using hp)
      | succ j2 =>
        simpa using ih i2 hi2 j2 (by omega)

theorem isPrefixOf_single_iff (a : Char) (t : Str) :
    (([a] : Str).isPrefixOf t = true) ↔ t.head? = some a := by
  cases t with
  | nil => simp [List.isPrefixOf]
  | cons c r =>
    simp only [List.isPrefixOf, List.head?, Option.some.injEq]
    constructor
    · intro h
      have := (Bool.and_eq_true _ _).mp h
      exact (beq_iff_eq.mp this.1).symm
    · intro h
      subst h
      simp

theorem mem_pySlice {s : Str} {a b : Nat} {x : Char} (h : x ∈ pySlice s a b) :
    ∃ k, a ≤ k ∧ k < b ∧ s[k]? = some x := by
  unfold pySlice at h
  rcases List.mem_iff_getElem?.mp h with ⟨m, hm⟩
  rw [List.getElem?_drop, List.getElem?_take] at hm
  by_cases hb : a + m < b
  · rw [if_pos hb] at hm
    exact ⟨a + m, Nat.le_add_right _ _, hb, hm⟩
  · rw [if_neg hb] at hm
    exact absurd hm (by simp)

theorem pyRstrip_last (s : Str) (c : Char) (h : (pyRstrip s).getLast? = some c) :
    pyIsSpace c = false := by
  unfold pyRstrip at h
  rw [List.getLast?_reverse] at h
  have hd := List.head?_dropWhile_not pyIsSpace s.reverse
  rw [h] at hd
  exact hd

theorem pyRstrip_subset {s : Str} {x : Char} (h : x ∈ pyRstrip s) : x ∈ s := by
  unfold pyRstrip at h
  rw [List.mem_reverse] at h
  have := (List.dropWhile_sublist pyIsSpace).subset h
  simpa using this

theorem descTransform_no_newline (s : Str) : '\n' ∉ descTransform s := by
  intro hx
  unfold descTransform at hx
  unfold pyReplace at hx
  rcases replFuel_mem _ _ _ _ _ hx with h | h
  · have h2 := pyRstrip_subset h
    rw [show (("\n").toList : Str) = ['\n'] from rfl,
      show ((" ").toList : Str) = [' '] from rfl,
      replFuel_single '\n' ' ' _ _ (Nat.le_refl _)] at h2
    rcases List.mem_map.mp h2 with ⟨c, _, hc⟩
    by_cases hcn : c = '\n'
    · rw [if_pos hcn] at hc
      exact absurd hc (by decide)
    · rw [if_neg hcn] at hc
      exact hcn hc
  · exact absurd h (by decide)

theorem pyReplace_last (old new s : Str) (hnew : new ≠ []) :
    (pyReplace old new s).getLast? = s.getLast? ∨
    (pyReplace old new s).getLast? = new.getLast? :=
  replFuel_last old new hnew s.length s

theorem descTransform_last (s : Str) (c : Char)
    (h : (descTransform s).getLast? = some c) : pyIsSpace c = false := by
  unfold descTransform at h
  rcases pyReplace_last codeGtPat ((">").toList)
      (pyRstrip (pyReplace (("\n").toList) ((" ").toList) s)) (by decide) with h1 | h1
  · rw [h1] at h
    exact pyRstrip_last _ _ h
  · rw [h1] at h
    have hc : c = '>' := by
      have : ((">").toList : Str).getLast? = some '>' := rfl
      rw [this] at h
      exact (Option.some.inj h).symm
    subst hc
    decide

theorem descTransform_mem {s : Str} {x : Char} (h : x ∈ descTransform s) :
    x ∈ s ∨ x = ' ' ∨ x = '>' := by
  unfold descTransform pyReplace at h
  rcases replFuel_mem _ _ _ _ _ h with h1 | h1
  · have h2 := pyRstrip_subset h1
    rw [show (("\n").toList : Str) = ['\n'] from rfl,
      show ((" ").toList : Str) = [' '] from rfl,
      replFuel_single '\n' ' ' _ _ (Nat.le_refl _)] at h2
    rcases List.mem_map.mp h2 with ⟨c, hcmem, hc⟩
    by_cases hcn : c = '\n'
    · rw [if_pos hcn] at hc
      exact Or.inr (Or.inl hc.symm)
    · rw [if_neg hcn] at hc
      exact Or.inl (hc ▸ hcmem)
  · right; right
    simpa using h1

theorem procSeg_ok_inv {p n d : Str} (h : procSeg p = Except.ok (n, d)) :
    ∃ r1 i1 i2 r4 j1 j2,
      (pySplit trPat p)[1]? = some r1 ∧
      pyIndexFrom gtPat r1 0 = some i1 ∧
      pyIndexFrom ltPat r1 1 = some i2 ∧
      (pySplit trPat p)[4]? = some r4 ∧
      pyIndexFrom gtPat r4 0 = some j1 ∧
      pyIndexFrom tdClosePat r4 2 = some j2 ∧
      n = pySlice r1 (i1 + 1) i2 ∧
      d = descTransform (pySlice r4 (j1 + 1) j2) ∧
      '<' ∉ d ∧ '\x22' ∉ d := by
  unfold procSeg at h
  split at h
  · simp at h
  rename_i r1 hr1
  split at h
  · simp at h
  rename_i i1 hi1
  split at h
  · simp at h
  rename_i i2 hi2
  split at h
  · simp at h
  rename_i r4 hr4
  split at h
  · simp at h
  rename_i j1 hj1
  split at h
  · simp at h
  rename_i j2 hj2
  split at h
  · simp at h
  rename_i hlt
  split at h
  · simp at h
  rename_i hq
  simp only [Except.ok.injEq, Prod.mk.injEq] at h
  exact ⟨r1, i1, i2, r4, j1, j2, hr1, hi1, hi2, hr4, hj1, hj2,
    h.1.symm, h.2.symm, h.2 ▸ hlt, h.2 ▸ hq⟩

theorem procSeg_assertLt {p d : Str}
    (h : procSeg p = Except.error (PyErr.assertLt d)) : '<' ∈ d := by
  unfold procSeg at h
  split at h
  · simp at h
  rename_i r1 hr1
  split at h
  · simp at h
  rename_i i1 hi1
  split at h
  · simp at h
  rename_i i2 hi2
  split at h
  · simp at h
  rename_i r4 hr4
  split at h
  · simp at h
  rename_i j1 hj1
  split at h
  · simp at h
  rename_i j2 hj2
  split at h
  · rename_i hlt
    simp only [Except.error.injEq, PyErr.assertLt.injEq] at h
    exact h ▸ hlt
  split at h
  · simp at h
  · simp at h

theorem procSeg_assertQuote {p d : Str}
    (h : procSeg p = Except.error (PyErr.assertQuote d)) : '\x22' ∈ d := by
  unfold procSeg at h
  split at h
  · simp at h
  rename_i r1 hr1
  split at h
  · simp at h
  rename_i i1 hi1
  split at h
  · simp at h
  rename_i i2 hi2
  split at h
  · simp at h
  rename_i r4 hr4
  split at h
  · simp at h
  rename_i j1 hj1
  split at h
  · simp at h
  rename_i j2 hj2
  split at h
  · simp at h
  split at h
  · rename_i hq
    simp only [Except.error.injEq, PyErr.assertQuote.injEq] at h
    exact h ▸ hq
  · simp at h

theorem procSeg_ok_clean {p n d : Str} (h : procSeg p = Except.ok (n, d)) :
    '<' ∉ d ∧ '\x22' ∉ d := by
  obtain ⟨_, _, _, _, _, _, _, _, _, _, _, _, _, _, hlt, hq⟩ := procSeg_ok_inv h
  exact ⟨hlt, hq⟩

theorem runPairs_cons_ok {p : Str} {nd : Str × Str} (ps : List Str)
    (h : procSeg p = Except.ok nd) :
    runPairs (p :: ps) = (nd :: (runPairs ps).1, (runPairs ps).2) := by
  simp [runPairs, h]

theorem runPairs_cons_err {p : Str} {e : PyErr} (ps : List Str)
    (h : procSeg p = Except.error e) :
    runPairs (p :: ps) = ([], some e) := by
  simp [runPairs, h]

theorem runPairs_mem_ok {segs : List Str} {nd : Str × Str}
    (h : nd ∈ (runPairs segs).1) : ∃ s ∈ segs, procSeg s = Except.ok nd := by
  induction segs with
  | nil => simp [runPairs] at h
  | cons p ps ih =>
    cases hp : procSeg p with
    | error e =>
      rw [runPairs_cons_err ps hp] at h
      simp at h
    | ok nd2 =>
      rw [runPairs_cons_ok ps hp] at h
      rcases List.mem_cons.mp h with h2 | h2
      · exact ⟨p, List.mem_cons_self _ _, h2 ▸ hp⟩
      · rcases ih h2 with ⟨s, hs, hps⟩
        exact ⟨s, List.mem_cons_of_mem _ hs, hps⟩

theorem runPairs_complete_length (segs : List Str)
    (h : (runPairs segs).2 = none) : (runPairs segs).1.length = segs.length := by
  induction segs with
  | nil => simp [runPairs]
  | cons p ps ih =>
    cases hp : procSeg p with
    | error e =>
      rw [runPairs_cons_err ps hp] at h
      simp at h
    | ok nd =>
      rw [runPairs_cons_ok ps hp] at h ⊢
      simp only [List.length_cons]
      rw [ih h]

theorem findSub_single (a : Char) :
    ∀ s : Str, findSub [a] s = s.findIdx? (fun c => c == a) := by
  intro s
  induction s with
  | nil => rfl
  | cons c rest ih =>
    simp only [findSub, List.findIdx?_cons]
    by_cases hac : a = c
    · subst hac
      rw [if_pos (by simp [List.isPrefixOf]), if_pos (by simp)]
    · rw [if_neg (by simp [List.isPrefixOf]; exact fun hh => absurd hh hac),
        if_neg (by simp; exact fun hh => absurd hh.symm hac)]
      rw [List.findIdx?_succ, ih]

theorem runPairs_error_idx (segs : List Str) (e : PyErr)
    (h : (runPairs segs).2 = some e) :
    ∃ s, segs[(runPairs segs).1.length]? = some s ∧
      procSeg s = Except.error e ∧
      ∀ j, j < (runPairs segs).1.length →
        ∃ s2 nd, segs[j]? = some s2 ∧ (runPairs segs).1[j]? = some nd ∧
          procSeg s2 = Except.ok nd := by
  induction segs with
  | nil => simp [runPairs] at h
  | cons p ps ih =>
    cases hp : procSeg p with
    | error e2 =>
      rw [runPairs_cons_err ps hp] at h ⊢
      obtain rfl : e2 = e := by simpa using h
      exact ⟨p, by simp, hp, by simp⟩
    | ok nd =>
      rw [runPairs_cons_ok ps hp] at h ⊢
      obtain ⟨s, hs1, hs2, hs3⟩ := ih h
      refine ⟨s, by simpa using hs1, hs2, ?_⟩
      intro j hj
      cases j with
      | zero => exact ⟨p, nd, by simp, by simp, hp⟩
      | succ j2 =>
        obtain ⟨s2, nd2, h1, h2, h3⟩ := hs3 j2 (by simpa using hj)
        exact ⟨s2, nd2, by simpa using h1, by simpa using h2, h3⟩

theorem runPairs_assert_iff (segs : List Str) :
    (∃ e, (runPairs segs).2 = some e ∧ isAssertErr e = true) ↔
    (∃ d, d ∈ descsDuringRun segs ∧ ('<' ∈ d ∨ '\x22' ∈ d)) := by
  induction segs with
  | nil => simp [runPairs, descsDuringRun]
  | cons p ps ih =>
    cases hp : procSeg p with
    | error e2 =>
      rw [runPairs_cons_err ps hp]
      cases e2 with
      | indexError =>
        simp only [descsDuringRun, hp]
        constructor
        · rintro ⟨e, he, ha⟩
          obtain rfl : PyErr.indexError = e := by simpa using he
          simp [isAssertErr] at ha
        · rintro ⟨d, hd, _⟩
          simp at hd
      | valueError =>
        simp only [descsDuringRun, hp]
        constructor
        · rintro ⟨e, he, ha⟩
          obtain rfl : PyErr.valueError = e := by simpa using he
          simp [isAssertErr] at ha
        · rintro ⟨d, hd, _⟩
          simp at hd
      | assertLt d0 =>
        simp only [descsDuringRun, hp]
        constructor
        · intro _
          exact ⟨d0, by simp, Or.inl (procSeg_assertLt hp)⟩
        · intro _
          exact ⟨PyErr.assertLt d0, rfl, rfl⟩
      | assertQuote d0 =>
        simp only [descsDuringRun, hp]
        constructor
        · intro _
          exact ⟨d0, by simp, Or.inr (procSeg_assertQuote hp)⟩
        · intro _
          exact ⟨PyErr.assertQuote d0, rfl, rfl⟩
    | ok nd =>
      rw [runPairs_cons_ok ps hp]
      simp only [descsDuringRun, hp]
      have hclean : '<' ∉ nd.2 ∧ '\x22' ∉ nd.2 := procSeg_ok_clean (p := p) hp
      constructor
      · intro hL
        obtain ⟨d, hd, hbad⟩ := ih.mp hL
        exact ⟨d, List.mem_cons_of_mem _ hd, hbad⟩
      · rintro ⟨d, hd, hbad⟩
        rcases List.mem_cons.mp hd with rfl | hd2
        · rcases hbad with hb | hb
          · exact absurd hb hclean.1
          · exact absurd hb hclean.2
        · exact ih.mpr ⟨d, hd2, hbad⟩

theorem procSeg_ok_name {p n d : Str} (h : procSeg p = Except.ok (n, d)) :
    '<' ∉ n := by
  obtain ⟨r1, i1, i2, r4, j1, j2, hr1, hi1, hi2, hr4, hj1, hj2, hn, hd, hlt, hq⟩ :=
    procSeg_ok_inv h
  subst hn
  intro hx
  obtain ⟨k, hk1, hk2, hk3⟩ := mem_pySlice hx
  unfold pyIndexFrom at hi2
  rcases Option.map_eq_some'.mp hi2 with ⟨i0, hi0, hi2eq⟩
  have hmin := findSub_min ltPat (r1.drop 1) i0 hi0
  have hklt : k - 1 < i0 := by omega
  have hpref := hmin (k - 1) hklt
  rw [List.drop_drop] at hpref
  have hk' : 1 + (k - 1) = k := by omega
  rw [hk'] at hpref
  have hhead : (r1.drop k).head? = some '<' := by
    rw [List.head?_drop]
    exact hk3
  have hlp : ltPat = ['<'] := rfl
  rw [hlp] at hpref
  rw [← isPrefixOf_single_iff] at hhead
  rw [hpref] at hhead
  simp at hhead

/-- Spec-side description transformation, written from the spec's words:
replace every newline with a space, strip trailing whitespace, then
perform the single literal substitution of <code>&gt;</code> by >. -/
def spec_descTransform (s : Str) : Str :=
  pyReplace codeGtPat ((">").toList)
    (pyRstrip (s.map (fun c => if c = '\n' then ' ' else c)))

/-- A crafted page whose single puzzle row has a double quote inside the
name cell; the descriptions are clean, so the run completes. -/
def pageNameQuote : Str :=
  ("junk<span class=\x22puzzle\x22>X<tr>>N\x22AME<q<tr>a<tr>b<tr>>DESC</td>more").toList

/-- The single segment of pageNameQuote. -/
def segNameQuote : Str :=
  ("X<tr>>N\x22AME<q<tr>a<tr>b<tr>>DESC</td>more").toList

/-- A crafted page whose single segment contains only one row, so r[1]
raises IndexError. -/
def pageShortRow : Str := ("<span class=\x22puzzle\x22>x").toList

/-- A crafted page with two puzzles: the first is clean, the second has
a double quote in its description, so the second assertion fires after
the first entry was already printed. -/
def pageTwoPuzzles : Str :=
  ("hdr<span class=\x22puzzle\x22>X<tr>>Net<x<tr>a<tr>b<tr>>A game</td>z<span class=\x22puzzle\x22>X<tr>>Go<x<tr>a<tr>b<tr>>B\x22AD</td>z").toList

/-! ### The claims -/

/-- C1 counterexample: on pageNameQuote the run completes, yet the one
pair written to the output file has a double quote inside its name, so
not every written pair is free of < and the double quote. -/
theorem c1_counterexample :
    (scriptRun pageNameQuote).2 = none ∧
    ∃ nd, nd ∈ (scriptRun pageNameQuote).1 ∧
      ('<' ∈ nd.1 ∨ '\x22' ∈ nd.1 ∨ '<' ∈ nd.2 ∨ '\x22' ∈ nd.2) := by
  refine ⟨by rfl, ((("N\x22AME").toList), (("DESC").toList)), ?_, ?_⟩
  · decide
  · right
    left
    decide

/-- C1 amended: every (name, description) pair written to the output
file has a description containing neither < nor the double quote, and a
name containing no <; the name is written unvalidated and may contain a
double quote. -/
theorem c1_amended (page : Str) (nd : Str × Str)
    (h : nd ∈ (scriptRun page).1) :
    '<' ∉ nd.2 ∧ '\x22' ∉ nd.2 ∧ '<' ∉ nd.1 := by
  obtain ⟨s, _, hs⟩ := runPairs_mem_ok h
  rcases nd with ⟨n, d⟩
  obtain ⟨h1, h2⟩ := procSeg_ok_clean hs
  exact ⟨h1, h2, procSeg_ok_name hs⟩

/-- C1 witness: the amended statement evaluated on pageNameQuote. -/
theorem c1_witness :
    (((("N\x22AME").toList : Str), (("DESC").toList : Str)) ∈
        (scriptRun pageNameQuote).1) ∧
    ('<' ∉ (("DESC").toList : Str) ∧ '\x22' ∉ (("DESC").toList : Str) ∧
      '<' ∉ (("N\x22AME").toList : Str)) :=
  ⟨by decide,
    c1_amended pageNameQuote ((("N\x22AME").toList), (("DESC").toList))
      (by decide)⟩

/-- C2 counterexample: on pageShortRow the run neither completes nor
aborts via an assertion: the single segment has no second <tr> part, so
r[1] raises IndexError. -/
theorem c2_counterexample :
    ¬((scriptRun pageShortRow).2 = none ∨
      ∃ e, (scriptRun pageShortRow).2 = some e ∧ isAssertErr e = true) := by
  have hrun : (scriptRun pageShortRow).2 = some PyErr.indexError := by rfl
  rintro (h | ⟨e, he, ha⟩)
  · rw [hrun] at h
    exact absurd h (by simp)
  · rw [hrun] at he
    obtain rfl : PyErr.indexError = e := by simpa using he
    simp [isAssertErr] at ha

/-- C2 amended: for every input page the script either completes
normally or aborts with exactly one of: an assertion failure on a
description, an IndexError from r[1] or r[4], or a ValueError from a
str.index call; no other failure mode occurs. -/
theorem c2_amended (page : Str) :
    (scriptRun page).2 = none ∨
    ∃ e, (scriptRun page).2 = some e ∧
      (isAssertErr e = true ∨ e = PyErr.indexError ∨ e = PyErr.valueError) := by
  cases h : (scriptRun page).2 with
  | none => exact Or.inl rfl
  | some e =>
    refine Or.inr ⟨e, rfl, ?_⟩
    cases e with
    | indexError => exact Or.inr (Or.inl rfl)
    | valueError => exact Or.inr (Or.inr rfl)
    | assertLt d => exact Or.inl rfl
    | assertQuote d => exact Or.inl rfl

/-- C3 counterexample: on pageTwoPuzzles the run aborts at the second
puzzle's double-quote assertion, yet the output file already contains
the entry line for the first puzzle, so partial output is produced. -/
theorem c3_counterexample :
    (scriptRun pageTwoPuzzles).2 =
      some (PyErr.assertQuote (("B\x22AD").toList)) ∧
    entryLine (("Net").toList) (("A game").toList) ∈
      outputFile pageTwoPuzzles :=
  ⟨by rfl, by decide⟩

/-- C3 amended: if the run aborts because an assertion fails, partial
output is produced: the output file holds the header line followed by
exactly the entries for the puzzles processed before the failing
segment, with no closing line; the failing segment sits right after the
written pairs and each earlier segment yielded its written pair. -/
theorem c3_amended (page : Str) (e : PyErr)
    (h1 : (scriptRun page).2 = some e) (h2 : isAssertErr e = true) :
    outputFile page =
      headerLine :: ((scriptRun page).1.map (fun nd => entryLine nd.1 nd.2)) ∧
    ∃ s, (segsOf page)[(scriptRun page).1.length]? = some s ∧
      procSeg s = Except.error e ∧
      ∀ j, j < (scriptRun page).1.length →
        ∃ s2 nd, (segsOf page)[j]? = some s2 ∧
          (scriptRun page).1[j]? = some nd ∧ procSeg s2 = Except.ok nd := by
  constructor
  · unfold outputFile
    rw [h1]
    simp
  · exact runPairs_error_idx (segsOf page) e h1

/-- C3 witness: the amended statement evaluated on pageTwoPuzzles. -/
theorem c3_witness :
    ((scriptRun pageTwoPuzzles).2 =
        some (PyErr.assertQuote (("B\x22AD").toList)) ∧
      isAssertErr (PyErr.assertQuote (("B\x22AD").toList)) = true) ∧
    (outputFile pageTwoPuzzles =
      headerLine ::
        ((scriptRun pageTwoPuzzles).1.map (fun nd => entryLine nd.1 nd.2)) ∧
    ∃ s, (segsOf pageTwoPuzzles)[(scriptRun pageTwoPuzzles).1.length]? = some s ∧
      procSeg s = Except.error (PyErr.assertQuote (("B\x22AD").toList)) ∧
      ∀ j, j < (scriptRun pageTwoPuzzles).1.length →
        ∃ s2 nd, (segsOf pageTwoPuzzles)[j]? = some s2 ∧
          (scriptRun pageTwoPuzzles).1[j]? = some nd ∧
          procSeg s2 = Except.ok nd) :=
  ⟨⟨by rfl, by rfl⟩, c3_amended pageTwoPuzzles _ (by rfl) (by rfl)⟩

/-- C4: the run aborts via an assertion exactly when some description
extracted during the run (after newline replacement, rstrip and the one
substitution) still contains < or the double quote. -/
theorem c4_confirmed (page : Str) :
    (∃ e, (scriptRun page).2 = some e ∧ isAssertErr e = true) ↔
    (∃ d, d ∈ extractedDescs page ∧ ('<' ∈ d ∨ '\x22' ∈ d)) :=
  runPairs_assert_iff (segsOf page)

/-- C5: the output is deterministic: two runs of the extraction and
formatting on the same page text produce identical file contents. -/
theorem c5_confirmed (page : Str) (o1 o2 : List Str)
    (h1 : outputFile page = o1) (h2 : outputFile page = o2) : o1 = o2 :=
  h1.symm.trans h2

/-- C5 witness: the determinism statement evaluated on pageNameQuote. -/
theorem c5_witness :
    outputFile pageNameQuote =
      [headerLine, entryLine (("N\x22AME").toList) (("DESC").toList),
        footerLine] ∧
    ([headerLine, entryLine (("N\x22AME").toList) (("DESC").toList),
        footerLine] : List Str) =
      [headerLine, entryLine (("N\x22AME").toList) (("DESC").toList),
        footerLine] :=
  ⟨by rfl, c5_confirmed pageNameQuote _ _ (by rfl) (by rfl)⟩

/-- C6: when the run completes, the output file is the fixed-format
array literal: the header line, then one formatted line per extracted
pair, then the closing line. -/
theorem c6_confirmed (page : Str) (h : (scriptRun page).2 = none) :
    outputFile page =
      headerLine ::
        ((scriptRun page).1.map (fun nd =>
          ("    \x7b@\x22").toList ++ nd.1 ++ ("\x22, @\x22").toList ++
            nd.2 ++ ("\x22\x7d,").toList)) ++ [footerLine] := by
  unfold outputFile
  rw [h]
  rfl

/-- C6 witness: the format statement evaluated on pageNameQuote. -/
theorem c6_witness :
    (scriptRun pageNameQuote).2 = none ∧
    outputFile pageNameQuote =
      headerLine ::
        ((scriptRun pageNameQuote).1.map (fun nd =>
          ("    \x7b@\x22").toList ++ nd.1 ++ ("\x22, @\x22").toList ++
            nd.2 ++ ("\x22\x7d,").toList)) ++ [footerLine] :=
  ⟨by rfl, c6_confirmed pageNameQuote (by rfl)⟩

/-- C7: the description transformation applied by the script coincides
with the spec's description: replace every newline with a space, strip
trailing whitespace, then perform the single literal substitution. -/
theorem c7_confirmed (s : Str) : descTransform s = spec_descTransform s := by
  unfold descTransform spec_descTransform pyReplace
  rw [show (("\n").toList : Str) = ['\n'] from rfl,
    show ((" ").toList : Str) = [' '] from rfl,
    replFuel_single '\n' ' ' s.length s (Nat.le_refl _)]

/-- C8: when the run completes, the number of entry lines written equals
the number of occurrences of the puzzle marker in the page. -/
theorem c8_confirmed (page : Str) (h : (scriptRun page).2 = none) :
    ((scriptRun page).1.map (fun nd => entryLine nd.1 nd.2)).length =
      countOcc spanPat page := by
  rw [List.length_map]
  have h1 := runPairs_complete_length (segsOf page) h
  rw [show (scriptRun page).1 = (runPairs (segsOf page)).1 from rfl, h1]
  unfold segsOf
  rw [List.length_drop, pySplit_length]
  omega

/-- C8 witness: the count statement evaluated on pageNameQuote. -/
theorem c8_witness :
    (scriptRun pageNameQuote).2 = none ∧
    ((scriptRun pageNameQuote).1.map (fun nd => entryLine nd.1 nd.2)).length =
      countOcc spanPat pageNameQuote :=
  ⟨by rfl, c8_confirmed pageNameQuote (by rfl)⟩

/-- C9: when the run completes, every written description contains no
newline character and does not end in whitespace. -/
theorem c9_confirmed (page : Str) (h : (scriptRun page).2 = none)
    (nd : Str × Str) (hmem : nd ∈ (scriptRun page).1) :
    '\n' ∉ nd.2 ∧ ∀ c, nd.2.getLast? = some c → pyIsSpace c = false := by
  obtain ⟨s, _, hs⟩ := runPairs_mem_ok hmem
  rcases nd with ⟨n, d⟩
  obtain ⟨r1, i1, i2, r4, j1, j2, _, _, _, _, _, _, _, hd, _, _⟩ :=
    procSeg_ok_inv hs
  subst hd
  exact ⟨descTransform_no_newline _, fun c hc => descTransform_last _ c hc⟩

/-- C9 witness: the statement evaluated on pageNameQuote. -/
theorem c9_witness :
    ((scriptRun pageNameQuote).2 = none ∧
      ((("N\x22AME").toList : Str), (("DESC").toList : Str)) ∈
        (scriptRun pageNameQuote).1) ∧
    ('\n' ∉ (("DESC").toList : Str) ∧
      ∀ c, (("DESC").toList : Str).getLast? = some c → pyIsSpace c = false) :=
  ⟨⟨by rfl, by decide⟩,
    c9_confirmed pageNameQuote (by rfl)
      ((("N\x22AME").toList), (("DESC").toList)) (by decide)⟩

/-- C10: a written name is exactly the slice of the second tr-delimited
segment from just after its first > up to the first < found at index at
least 1 (index j in the dropped list is index j + 1 of the segment),
with no substitution, stripping or assertion applied to it. -/
theorem c10_confirmed (p n d : Str) (h : procSeg p = Except.ok (n, d)) :
    ∃ r1, (pySplit trPat p)[1]? = some r1 ∧
      ∃ i j, r1.findIdx? (fun c => c == '>') = some i ∧
        (r1.drop 1).findIdx? (fun c => c == '<') = some j ∧
        n = (r1.take (j + 1)).drop (i + 1) := by
  obtain ⟨r1, i1, i2, r4, j1, j2, hr1, hi1, hi2, _, _, _, hn, _, _, _⟩ :=
    procSeg_ok_inv h
  subst hn
  unfold pyIndexFrom at hi1 hi2
  rcases Option.map_eq_some'.mp hi1 with ⟨a0, ha0, ha⟩
  rcases Option.map_eq_some'.mp hi2 with ⟨b0, hb0, hb⟩
  rw [List.drop_zero] at ha0
  have hi1' : r1.findIdx? (fun c => c == '>') = some i1 := by
    rw [← findSub_single, show (['>'] : Str) = gtPat from rfl, ha0]
    simp only [Option.some.injEq]
    omega
  have hj' : (r1.drop 1).findIdx? (fun c => c == '<') = some b0 := by
    rw [← findSub_single, show (['<'] : Str) = ltPat from rfl]
    exact hb0
  refine ⟨r1, hr1, i1, b0, hi1', hj', ?_⟩
  unfold pySlice
  rw [← hb]

/-- C10 witness: the name-slice statement evaluated on the single
segment of pageNameQuote. -/
theorem c10_witness :
    procSeg segNameQuote =
      Except.ok ((("N\x22AME").toList), (("DESC").toList)) ∧
    (∃ r1, (pySplit trPat segNameQuote)[1]? = some r1 ∧
      ∃ i j, r1.findIdx? (fun c => c == '>') = some i ∧
        (r1.drop 1).findIdx? (fun c => c == '<') = some j ∧
        (("N\x22AME").toList : Str) = (r1.take (j + 1)).drop (i + 1)) :=
  ⟨by rfl, c10_confirmed segNameQuote _ _ (by rfl)⟩
